import Mathlib

/-!
Shallow embedding of the Andorinha job-queue core (`src/andorinha/queue.py`)
together with the relevant parts of its storage contract
(`src/andorinha/storage.py`, table `jobs`).

Modelling conventions:
* Timestamps are stored by the program as fixed-width UTC strings
  (`YYYY-MM-DDTHH:MM:SS.mmmZ`); lexicographic comparison of those strings
  coincides with chronological comparison, so instants are modelled as `Int`
  (an abstract count of time units).  TTL arguments are `Int` in the same
  units.
* The `jobs` table is modelled as a `List Job` in rowid order; SQLite assigns
  `id = max existing id + 1` on insert, and `id` is the `INTEGER PRIMARY KEY`
  (so ids are unique in any reachable table).
* Each engine call runs inside one exclusive (`BEGIN IMMEDIATE`) transaction,
  so a call is modelled as a pure function from the table (plus the instant
  the clock returns during the call) to the new table and result.
-/

namespace Andorinha

/-- The five job statuses allowed by the `CHECK` constraint of the `jobs`
table in `storage.py`. -/
inductive Status where
  | queued
  | leased
  | succeeded
  | failed
  | canceled
deriving DecidableEq, Repr

/-- One row of the `jobs` table (columns in `storage.py`, schema v1). -/
structure Job where
  id : Nat
  status : Status
  priority : Int
  queue : String
  payload : Option String
  attempt : Nat
  max_attempts : Int
  scheduled_at : Option Int
  lease_expires_at : Option Int
  rate_group : Option String
  cron : Option String
  next_run_at : Option String
  created_at : Int
  updated_at : Int
deriving DecidableEq, Repr

/-- The `jobs` table, rows in rowid order. -/
abbrev DB := List Job

/-- SQLite rowid assignment for `INTEGER PRIMARY KEY`: one more than the
largest id in the table (1 on an empty table). -/
def nextId (db : DB) : Nat :=
  (db.map Job.id).foldr max 0 + 1

/-- `enqueue` (`queue.py` lines 27-79): inserts one row with
`status='queued'`, `attempt=0`, `lease_expires_at=NULL`,
`created_at=updated_at=now`.  Returns the new id and the new table. -/
def enqueue (db : DB) (now : Int) (queue : String) (priority : Int)
    (payload : Option String) (max_attempts : Int) (scheduled_at : Option Int)
    (rate_group : Option String) (cron : Option String)
    (next_run_at : Option String) : Nat × DB :=
  let i := nextId db
  (i, db ++ [{ id := i, status := .queued, priority := priority,
               queue := queue, payload := payload, attempt := 0,
               max_attempts := max_attempts, scheduled_at := scheduled_at,
               lease_expires_at := none, rate_group := rate_group,
               cron := cron, next_run_at := next_run_at,
               created_at := now, updated_at := now }])

/-- The `WHERE` predicate of the selection query in `dequeue_with_lease`
(`queue.py` lines 104-109): `status='queued'` and not scheduled in the
future, or `status='leased'` with an expired lease.  In SQL a comparison
against `NULL` is falsy, hence the explicit null tests. -/
def eligible (now : Int) (j : Job) : Bool :=
  (j.status == .queued &&
    (j.scheduled_at.isNone || decide (j.scheduled_at.getD 0 ≤ now)))
  || (j.status == .leased && j.lease_expires_at.isSome &&
      decide (j.lease_expires_at.getD 0 ≤ now))

/-- The optional `AND queue = ?` filter of the second query variant
(`queue.py` line 125). -/
def queueMatch (qf : Option String) (j : Job) : Bool :=
  match qf with
  | none => true
  | some q => j.queue == q

/-- Strict comparison under `ORDER BY priority ASC, created_at ASC`:
`a` sorts strictly before `b`. -/
def better (a b : Job) : Bool :=
  decide (a.priority < b.priority)
  || (a.priority == b.priority && decide (a.created_at < b.created_at))

/-- One step of the `ORDER BY ... LIMIT 1` scan: keep the best row seen so
far, replacing it only when the candidate sorts strictly before it (so a tie
on both sort keys is resolved towards the smaller rowid, as the rowid-ordered
scan does). -/
def selStep (now : Int) (qf : Option String) (best : Option Job) (j : Job) :
    Option Job :=
  match best with
  | none => if eligible now j && queueMatch qf j then some j else none
  | some b =>
      if (eligible now j && queueMatch qf j) && better j b then some j
      else some b

/-- The `SELECT id ... ORDER BY priority ASC, created_at ASC LIMIT 1` of
`dequeue_with_lease`: the eligible, queue-matching row minimal under
(priority, created_at). -/
def selectJob (db : DB) (now : Int) (qf : Option String) : Option Job :=
  db.foldl (selStep now qf) none

/-- The `UPDATE` of `dequeue_with_lease` (`queue.py` lines 137-146) applied
to one row: `status='leased'`, `lease_expires_at = now + ttl`,
`updated_at = now`. -/
def leaseRow (now ttl : Int) (j : Job) : Job :=
  { j with status := .leased, lease_expires_at := some (now + ttl),
           updated_at := now }

/-- `dequeue_with_lease` (`queue.py` lines 82-155): select at most one
eligible row, mark it leased with expiry `now + ttl`, and return the updated
row (the follow-up `SELECT * WHERE id=?`) together with the new table.
Returns `(none, db)` when no row is eligible. -/
def dequeue_with_lease (db : DB) (now : Int) (ttl : Int)
    (qf : Option String) : Option Job × DB :=
  match selectJob db now qf with
  | none => (none, db)
  | some j =>
      (some (leaseRow now ttl j),
       db.map (fun k => if k.id = j.id then leaseRow now ttl k else k))

/-- The `WHERE` predicate of the guarded `SELECT` in `extend_lease`
(`queue.py` lines 175-184): same id, currently leased, lease non-null and
strictly after `now`. -/
def extendPred (now : Int) (job_id : Nat) (j : Job) : Bool :=
  j.id == job_id && j.status == .leased && j.lease_expires_at.isSome &&
    decide (now < j.lease_expires_at.getD 0)

/-- `extend_lease` (`queue.py` lines 158-209): if a row passes `extendPred`,
set its `lease_expires_at` to the old expiry plus `add_ttl` and refresh
`updated_at`; otherwise report `false` and leave the table unchanged. -/
def extend_lease (db : DB) (now : Int) (job_id : Nat) (add_ttl : Int) :
    Bool × DB :=
  match db.find? (extendPred now job_id) with
  | none => (false, db)
  | some row =>
      let newExp := row.lease_expires_at.getD 0 + add_ttl
      (true, db.map (fun k =>
        if k.id = job_id then
          { k with lease_expires_at := some newExp, updated_at := now }
        else k))

/-- Propositional form of `better`: strictly smaller under the
(priority, created_at) lexicographic order. -/
def Better (a b : Job) : Prop :=
  a.priority < b.priority ∨
    (a.priority = b.priority ∧ a.created_at < b.created_at)

/-- The `success=True` branch of `release` (`queue.py` lines 230-240) applied
to one row. -/
def releaseSuccessRow (now : Int) (j : Job) : Job :=
  { j with status := .succeeded, lease_expires_at := none, updated_at := now }

/-- The `success=False` branch of `release` (`queue.py` lines 241-254)
applied to one row: back to `queued`, `attempt+1`, lease cleared,
`scheduled_at = COALESCE(scheduled_at, now)`. -/
def releaseFailureRow (now : Int) (j : Job) : Job :=
  { j with status := .queued, attempt := j.attempt + 1,
           lease_expires_at := none, updated_at := now,
           scheduled_at := some (j.scheduled_at.getD now) }

/-- `release` (`queue.py` lines 212-261): an unconditional `UPDATE ... WHERE
id=?` (no status guard), one branch per `success` value; returns nothing. -/
def release (db : DB) (now : Int) (job_id : Nat) (success : Bool) : DB :=
  db.map (fun k =>
    if k.id = job_id then
      if success then releaseSuccessRow now k else releaseFailureRow now k
    else k)

/-! ### Concrete fixtures -/

/-- Fixture: the table of the ordering scenario after enqueueing priorities
5, 1, 1 (jobs A, B, C) at instants 0, 1, 2 into queue `default`. -/
def scnDb : DB :=
  (enqueue (enqueue (enqueue [] 0 "default" 5 none 1 none none none none).2
      1 "default" 1 none 1 none none none none).2
    2 "default" 1 none 1 none none none none).2

/-- Fixture: first acquire of the scenario, at instant 10 with TTL 100. -/
def scnAcq1 : Option Job × DB := dequeue_with_lease scnDb 10 100 (some "default")

/-- Fixture: second acquire of the scenario. -/
def scnAcq2 : Option Job × DB :=
  dequeue_with_lease scnAcq1.2 10 100 (some "default")

/-- Fixture: third acquire of the scenario. -/
def scnAcq3 : Option Job × DB :=
  dequeue_with_lease scnAcq2.2 10 100 (some "default")

/-- Fixture: job A of the scenario (priority 5, created at instant 0). -/
def jobA : Job :=
  { id := 1, status := .queued, priority := 5, queue := "default",
    payload := none, attempt := 0, max_attempts := 1, scheduled_at := none,
    lease_expires_at := none, rate_group := none, cron := none,
    next_run_at := none, created_at := 0, updated_at := 0 }

/-- Fixture: the row returned by the scenario's first acquire (job B, leased
until instant 110). -/
def jobBLeased : Job :=
  { id := 2, status := .leased, priority := 1, queue := "default",
    payload := none, attempt := 0, max_attempts := 1, scheduled_at := none,
    lease_expires_at := some 110, rate_group := none, cron := none,
    next_run_at := none, created_at := 1, updated_at := 10 }

/-- Fixture: a currently leased job (lease expires at instant 100). -/
def jobLeased : Job :=
  { id := 1, status := .leased, priority := 0, queue := "default",
    payload := none, attempt := 0, max_attempts := 3, scheduled_at := none,
    lease_expires_at := some 100, rate_group := some "g", cron := none,
    next_run_at := none, created_at := 0, updated_at := 0 }

/-- Fixture: a job that has already succeeded. -/
def jobDone : Job :=
  { id := 1, status := .succeeded, priority := 0, queue := "default",
    payload := none, attempt := 3, max_attempts := 1, scheduled_at := none,
    lease_expires_at := none, rate_group := none, cron := none,
    next_run_at := none, created_at := 0, updated_at := 4 }

/-- Fixture: a queued job scheduled for instant 7. -/
def jobSched : Job :=
  { id := 4, status := .queued, priority := 0, queue := "default",
    payload := none, attempt := 0, max_attempts := 1, scheduled_at := some 7,
    lease_expires_at := none, rate_group := none, cron := none,
    next_run_at := none, created_at := 0, updated_at := 0 }

/-- The columns an engine operation may mutate are `status`,
`lease_expires_at`, `attempt`, `scheduled_at`, `updated_at`; `frameEq j j2`
says every other column of row `j2` agrees with row `j`. -/
def frameEq (j j2 : Job) : Prop :=
  j2.id = j.id ∧ j2.priority = j.priority ∧ j2.queue = j.queue ∧
  j2.payload = j.payload ∧ j2.max_attempts = j.max_attempts ∧
  j2.created_at = j.created_at ∧ j2.rate_group = j.rate_group ∧
  j2.cron = j.cron ∧ j2.next_run_at = j.next_run_at

/-- The data-model invariant for one row: `lease_expires_at` is non-null iff
`status = leased`. -/
def leaseInv (j : Job) : Prop :=
  j.lease_expires_at ≠ none ↔ j.status = .leased

/-- The lease invariant over a whole table. -/
def dbInv (db : DB) : Prop :=
  ∀ j ∈ db, leaseInv j

/-- N concurrent `acquire` callers: `BEGIN IMMEDIATE` makes the racing
transactions execute serially, each seeing the previous caller's committed
state, so the race is modelled as consecutive `dequeue_with_lease` calls at
one instant.  Returns each caller's result plus the final table. -/
def acquireSeq (now ttl : Int) (qf : Option String) :
    Nat → DB → List (Option Job) × DB
  | 0, db => ([], db)
  | n + 1, db =>
      let r := dequeue_with_lease db now ttl qf
      let rest := acquireSeq now ttl qf n r.2
      (r.1 :: rest.1, rest.2)


/-! ### Facts about the selection scan -/

lemma better_eq_true_iff (a b : Job) : better a b = true ↔ Better a b := by
  simp [better, Better]

lemma Better.irrefl (a : Job) : ¬ Better a a := by
  simp [Better]

lemma Better.trans {a b c : Job} (h1 : Better a b) (h2 : Better b c) :
    Better a c := by
  rcases h1 with h1 | ⟨h1, h1'⟩ <;> rcases h2 with h2 | ⟨h2, h2'⟩ <;>
    simp only [Better] <;> omega

lemma selStep_eq_none {now : Int} {qf : Option String} {acc : Option Job}
    {j : Job} :
    selStep now qf acc j = none ↔
      acc = none ∧ (eligible now j && queueMatch qf j) = false := by
  cases acc with
  | none => cases hg : (eligible now j && queueMatch qf j) <;> simp [selStep, hg]
  | some c =>
      cases hgb : ((eligible now j && queueMatch qf j) && better j c) <;>
        simp [selStep, hgb]

lemma selStep_eq_some {now : Int} {qf : Option String} {acc : Option Job}
    {j b : Job} (h : selStep now qf acc j = some b) :
    ((eligible now j && queueMatch qf j) = true ∧ b = j) ∨ acc = some b := by
  cases acc with
  | none =>
      cases hg : (eligible now j && queueMatch qf j) with
      | true =>
          simp [selStep, hg] at h
          exact Or.inl ⟨rfl, h.symm⟩
      | false => simp [selStep, hg] at h
  | some c =>
      cases hgb : ((eligible now j && queueMatch qf j) && better j c) with
      | true =>
          have hgb' := hgb
          rw [Bool.and_eq_true] at hgb'
          simp [selStep, hgb] at h
          exact Or.inl ⟨hgb'.1, h.symm⟩
      | false =>
          simp [selStep, hgb] at h
          exact Or.inr (by rw [h])

lemma selStep_improves {now : Int} {qf : Option String} {c : Job} {j : Job} :
    selStep now qf (some c) j = some c ∨
      (selStep now qf (some c) j = some j ∧ Better j c) := by
  cases hgb : ((eligible now j && queueMatch qf j) && better j c) with
  | true =>
      have hgb' := hgb
      rw [Bool.and_eq_true] at hgb'
      exact Or.inr ⟨by simp [selStep, hgb],
        (better_eq_true_iff j c).mp hgb'.2⟩
  | false => exact Or.inl (by simp [selStep, hgb])

lemma selStep_good_not_better {now : Int} {qf : Option String}
    {acc : Option Job} {j : Job}
    (hg : (eligible now j && queueMatch qf j) = true) :
    ∃ c, selStep now qf acc j = some c ∧ ¬ Better j c := by
  cases acc with
  | none => exact ⟨j, by simp [selStep, hg], Better.irrefl j⟩
  | some a =>
      cases hb : better j a with
      | true => exact ⟨j, by simp [selStep, hg, hb], Better.irrefl j⟩
      | false =>
          refine ⟨a, by simp [selStep, hg, hb], ?_⟩
          intro hc
          exact absurd ((better_eq_true_iff j a).mpr hc) (by simp [hb])

lemma foldl_selStep_eq_none {now : Int} {qf : Option String} :
    ∀ (l : List Job) (acc : Option Job),
      l.foldl (selStep now qf) acc = none ↔
        acc = none ∧ ∀ j ∈ l, (eligible now j && queueMatch qf j) = false := by
  intro l
  induction l with
  | nil => intro acc; simp
  | cons a t ih =>
      intro acc
      rw [List.foldl_cons, ih, selStep_eq_none]
      constructor
      · rintro ⟨⟨h1, h2⟩, h3⟩
        refine ⟨h1, ?_⟩
        intro j hj
        rcases List.mem_cons.mp hj with rfl | hj
        · exact h2
        · exact h3 j hj
      · rintro ⟨h1, h2⟩
        exact ⟨⟨h1, h2 a (List.mem_cons_self a t)⟩,
          fun j hj => h2 j (List.mem_cons_of_mem a hj)⟩

lemma foldl_selStep_mem {now : Int} {qf : Option String} :
    ∀ (l : List Job) (acc : Option Job) (b : Job),
      l.foldl (selStep now qf) acc = some b →
        acc = some b ∨
          (b ∈ l ∧ (eligible now b && queueMatch qf b) = true) := by
  intro l
  induction l with
  | nil => intro acc b h; exact Or.inl h
  | cons j t ih =>
      intro acc b h
      rw [List.foldl_cons] at h
      rcases ih (selStep now qf acc j) b h with h1 | h2
      · rcases selStep_eq_some h1 with ⟨hg, hbj⟩ | h3
        · rw [hbj]
          exact Or.inr ⟨List.mem_cons_self j t, hg⟩
        · exact Or.inl h3
      · exact Or.inr ⟨List.mem_cons_of_mem j h2.1, h2.2⟩

lemma foldl_selStep_improve {now : Int} {qf : Option String} :
    ∀ (l : List Job) (a b : Job),
      l.foldl (selStep now qf) (some a) = some b → b = a ∨ Better b a := by
  intro l
  induction l with
  | nil =>
      intro a b h
      rw [List.foldl_nil] at h
      exact Or.inl (Option.some_inj.mp h).symm
  | cons j t ih =>
      intro a b h
      rw [List.foldl_cons] at h
      rcases @selStep_improves now qf a j with h1 | ⟨h1, hba⟩
      · rw [h1] at h
        exact ih a b h
      · rw [h1] at h
        rcases ih j b h with rfl | h2
        · exact Or.inr hba
        · exact Or.inr (h2.trans hba)

lemma foldl_selStep_min {now : Int} {qf : Option String} :
    ∀ (l : List Job) (acc : Option Job) (b : Job),
      l.foldl (selStep now qf) acc = some b →
        ∀ k ∈ l, (eligible now k && queueMatch qf k) = true → ¬ Better k b := by
  intro l
  induction l with
  | nil => intro acc b h k hk; exact absurd hk (List.not_mem_nil k)
  | cons j t ih =>
      intro acc b h k hk hgk
      rw [List.foldl_cons] at h
      rcases List.mem_cons.mp hk with rfl | hkt
      · obtain ⟨c, hc, hnb⟩ := @selStep_good_not_better now qf acc k hgk
        rw [hc] at h
        rcases foldl_selStep_improve t c b h with rfl | h2
        · exact hnb
        · intro hkb
          exact hnb (hkb.trans h2)
      · exact ih (selStep now qf acc j) b h k hkt hgk

/-! ### Facts about `selectJob` -/

lemma selectJob_eq_none_iff {db : DB} {now : Int} {qf : Option String} :
    selectJob db now qf = none ↔
      ∀ j ∈ db, (eligible now j && queueMatch qf j) = false := by
  unfold selectJob
  rw [foldl_selStep_eq_none]
  simp

lemma selectJob_mem {db : DB} {now : Int} {qf : Option String} {b : Job}
    (h : selectJob db now qf = some b) :
    b ∈ db ∧ (eligible now b && queueMatch qf b) = true := by
  rcases foldl_selStep_mem db none b h with h1 | h2
  · exact absurd h1 (by simp)
  · exact h2

lemma selectJob_min {db : DB} {now : Int} {qf : Option String} {b : Job}
    (h : selectJob db now qf = some b) :
    ∀ k ∈ db, (eligible now k && queueMatch qf k) = true → ¬ Better k b :=
  foldl_selStep_min db none b h

/-! ### Generic helpers and eligibility facts -/

lemma forall2_map_self {α β : Type} (r : α → β → Prop) (f : α → β) :
    ∀ (l : List α), (∀ x ∈ l, r x (f x)) → List.Forall₂ r l (l.map f) := by
  intro l
  induction l with
  | nil =>
      intro _
      rw [List.map_nil]
      exact List.Forall₂.nil
  | cons a t ih =>
      intro h
      rw [List.map_cons]
      exact List.Forall₂.cons (h a (List.mem_cons_self a t))
        (ih fun x hx => h x (List.mem_cons_of_mem a hx))

lemma eligible_status {now : Int} {j : Job} (h : eligible now j = true) :
    j.status = .queued ∨ j.status = .leased := by
  cases hs : j.status <;> simp [eligible, hs] at h ⊢

lemma leaseRow_not_eligible {now ttl : Int} (h : 0 < ttl) (k : Job) :
    eligible now (leaseRow now ttl k) = false := by
  simp [eligible, leaseRow]
  omega

lemma selectJob_isSome_iff {db : DB} {now : Int} {qf : Option String} :
    (selectJob db now qf).isSome = true ↔
      ∃ k, k ∈ db ∧ eligible now k = true ∧ queueMatch qf k = true := by
  constructor
  · intro h
    cases hsel : selectJob db now qf with
    | none => rw [hsel] at h; simp at h
    | some b =>
        obtain ⟨hb, hg⟩ := selectJob_mem hsel
        rw [Bool.and_eq_true] at hg
        exact ⟨b, hb, hg.1, hg.2⟩
  · rintro ⟨k, hk, he, hq⟩
    cases hsel : selectJob db now qf with
    | none =>
        have hf := selectJob_eq_none_iff.mp hsel k hk
        rw [he, hq] at hf
        simp at hf
    | some b => simp

/-! ### Claim theorems -/

/-- C1: `acquire` returns at most one job per call, and any job it returns
is minimal among the eligible, queue-matching rows under `priority`
ascending then `created_at` ascending (strict FIFO inside a priority band);
in the concrete scenario — priorities [5, 1, 1] enqueued as A, B, C into one
queue — the acquire sequence yields B (id 2), then C (id 3), then A (id 1). -/
theorem acquire_priority_fifo :
    (∀ (db : DB) (now ttl : Int) (qf : Option String) (j : Job) (db2 : DB),
        dequeue_with_lease db now ttl qf = (some j, db2) →
        ∀ k ∈ db, eligible now k = true → queueMatch qf k = true →
          j.priority ≤ k.priority ∧
            (j.priority = k.priority → j.created_at ≤ k.created_at))
    ∧ scnAcq1.1.map Job.id = some 2
    ∧ scnAcq2.1.map Job.id = some 3
    ∧ scnAcq3.1.map Job.id = some 1 := by
  refine ⟨?_, by decide, by decide, by decide⟩
  intro db now ttl qf j db2 h k hk he hq
  cases hsel : selectJob db now qf with
  | none =>
      rw [dequeue_with_lease, hsel] at h
      exact absurd h (by simp)
  | some b =>
      simp only [dequeue_with_lease, hsel] at h
      obtain ⟨h1, h2⟩ := Prod.mk.injEq .. ▸ h
      have hj : j = leaseRow now ttl b := (Option.some_inj.mp h1).symm
      subst hj
      have hmin := selectJob_min hsel k hk (by rw [he, hq]; rfl)
      simp only [Better, leaseRow] at hmin ⊢
      push_neg at hmin
      exact ⟨hmin.1, fun hpe => hmin.2 hpe.symm⟩

/-- Witness for `acquire_priority_fifo`: in the concrete scenario the first
acquired job (B) does not rank after job A. -/
theorem acquire_priority_fifo_witness :
    jobBLeased.priority ≤ jobA.priority ∧
      (jobBLeased.priority = jobA.priority →
        jobBLeased.created_at ≤ jobA.created_at) :=
  acquire_priority_fifo.1 scnDb 10 100 (some "default") jobBLeased scnAcq1.2
    (by decide) jobA (by decide) (by decide) (by decide)

/-- C2: `acquire` returns a job iff an eligible, queue-matching job exists,
where eligibility is: `queued` and not scheduled in the future, or `leased`
with a non-null, elapsed `lease_expires_at`; a queued job scheduled at `s` is
eligible exactly when `s ≤ now`, and a leased job with expiry `e` is
reclaimable exactly when `e ≤ now`. -/
theorem acquire_iff_eligible :
    (∀ (db : DB) (now ttl : Int) (qf : Option String),
        (dequeue_with_lease db now ttl qf).1.isSome = true ↔
          ∃ k, k ∈ db ∧ eligible now k = true ∧ queueMatch qf k = true)
    ∧ (∀ (j : Job) (now s : Int), j.status = .queued → j.scheduled_at = some s →
        (eligible now j = true ↔ s ≤ now))
    ∧ (∀ (j : Job) (now e : Int), j.status = .leased →
        j.lease_expires_at = some e → (eligible now j = true ↔ e ≤ now)) := by
  refine ⟨?_, ?_, ?_⟩
  · intro db now ttl qf
    rw [← selectJob_isSome_iff]
    cases hsel : selectJob db now qf <;> simp [dequeue_with_lease, hsel]
  · intro j now s hs hsch
    simp [eligible, hs, hsch]
  · intro j now e hs hl
    simp [eligible, hs, hl]

/-- Witness for `acquire_iff_eligible`: the fixture scheduled for instant 7
is eligible at instant 10 exactly because 7 ≤ 10. -/
theorem acquire_iff_eligible_witness :
    eligible 10 jobSched = true ↔ (7 : Int) ≤ 10 :=
  acquire_iff_eligible.2.1 jobSched 10 7 (by decide) (by decide)

/-- C10: `release` with an id absent from the table is a no-op that raises
nothing and reports nothing: every row is left unchanged, for either value
of `success`. -/
theorem release_unknown_id_noop :
    ∀ (db : DB) (now : Int) (job_id : Nat) (success : Bool),
      (∀ j ∈ db, j.id ≠ job_id) → release db now job_id success = db := by
  intro db now job_id success h
  have hrows : ∀ j ∈ db,
      (fun k => if k.id = job_id then
        (if success then releaseSuccessRow now k else releaseFailureRow now k)
      else k) j = id j := by
    intro j hj
    simp [h j hj]
  unfold release
  rw [List.map_congr_left hrows, List.map_id]

/-- Witness for `release_unknown_id_noop`: releasing the absent id 99. -/
theorem release_unknown_id_noop_witness :
    release [jobA] 7 99 true = [jobA] :=
  release_unknown_id_noop [jobA] 7 99 true (by decide)

lemma forall2_self {α : Type} (r : α → α → Prop) :
    ∀ (l : List α), (∀ x ∈ l, r x x) → List.Forall₂ r l l := by
  intro l
  induction l with
  | nil => intro _; exact List.Forall₂.nil
  | cons a t ih =>
      intro h
      exact List.Forall₂.cons (h a (List.mem_cons_self a t))
        (ih fun x hx => h x (List.mem_cons_of_mem a hx))

/-- C5: `release(success=false)` sets the target row to `queued`, increments
`attempt` by exactly 1, clears `lease_expires_at`, stamps `updated_at = now`,
keeps `scheduled_at` when already non-null and otherwise sets it to `now`,
making the row immediately eligible again (no backoff); other rows are
untouched. -/
theorem release_failure_requeues :
    ∀ (db : DB) (now : Int) (job_id : Nat),
      List.Forall₂ (fun j j2 =>
        if j.id = job_id then
          j2.status = .queued ∧ j2.attempt = j.attempt + 1 ∧
          j2.lease_expires_at = none ∧ j2.updated_at = now ∧
          (∀ s, j.scheduled_at = some s → j2.scheduled_at = some s) ∧
          (j.scheduled_at = none →
            j2.scheduled_at = some now ∧ eligible now j2 = true)
        else j2 = j)
        db (release db now job_id false) := by
  intro db now job_id
  unfold release
  refine forall2_map_self _ _ db ?_
  intro j hj
  by_cases hid : j.id = job_id
  · cases hsch : j.scheduled_at with
    | none => simp [hid, hsch, releaseFailureRow, eligible]
    | some s0 => simp [hid, hsch, releaseFailureRow]
  · simp [hid]

/-- Witness for `release_failure_requeues`: the leased fixture released with
failure at instant 9. -/
theorem release_failure_requeues_witness :
    List.Forall₂ (fun j j2 =>
      if j.id = 1 then
        j2.status = .queued ∧ j2.attempt = j.attempt + 1 ∧
        j2.lease_expires_at = none ∧ j2.updated_at = 9 ∧
        (∀ s, j.scheduled_at = some s → j2.scheduled_at = some s) ∧
        (j.scheduled_at = none →
          j2.scheduled_at = some 9 ∧ eligible 9 j2 = true)
      else j2 = j)
      [jobLeased] (release [jobLeased] 9 1 false) :=
  release_failure_requeues [jobLeased] 9 1

lemma release_success_row_state {db : DB} {now : Int} {job_id : Nat} :
    ∀ r ∈ release db now job_id true, r.id = job_id →
      r.status = .succeeded ∧ r.lease_expires_at = none := by
  intro r hr hrid
  unfold release at hr
  obtain ⟨j, hj, hfj⟩ := List.mem_map.mp hr
  by_cases hid : j.id = job_id
  · rw [← hfj]
    simp [hid, releaseSuccessRow]
  · rw [← hfj] at hrid
    simp [hid] at hrid

/-- C6: `release(success=true)` is idempotent in effect on the terminal
state: one call makes the target row `succeeded` with `lease_expires_at`
null and `attempt` unchanged (other rows untouched), and a second call at
any instant leaves `status`, `lease_expires_at` and `attempt` of every row
exactly as they were after the first call. -/
theorem release_success_idempotent :
    ∀ (db : DB) (now now2 : Int) (job_id : Nat),
      List.Forall₂ (fun j j1 =>
        if j.id = job_id then
          j1.status = .succeeded ∧ j1.lease_expires_at = none ∧
            j1.attempt = j.attempt
        else j1 = j) db (release db now job_id true)
      ∧ List.Forall₂ (fun j1 j2 =>
          j2.status = j1.status ∧ j2.lease_expires_at = j1.lease_expires_at ∧
            j2.attempt = j1.attempt)
        (release db now job_id true)
        (release (release db now job_id true) now2 job_id true) := by
  intro db now now2 job_id
  constructor
  · unfold release
    refine forall2_map_self _ _ db ?_
    intro j hj
    by_cases hid : j.id = job_id
    · simp [hid, releaseSuccessRow]
    · simp [hid]
  · refine forall2_map_self _ _ (release db now job_id true) ?_
    intro r hr
    by_cases hid : r.id = job_id
    · obtain ⟨hs, hl⟩ := release_success_row_state r hr hid
      simp [hid, releaseSuccessRow, hs, hl]
    · simp [hid]

/-- Witness for `release_success_idempotent`: the leased fixture released
with success at instant 9, then again at instant 11. -/
theorem release_success_idempotent_witness :
    List.Forall₂ (fun j j1 =>
      if j.id = 1 then
        j1.status = .succeeded ∧ j1.lease_expires_at = none ∧
          j1.attempt = j.attempt
      else j1 = j) [jobLeased] (release [jobLeased] 9 1 true)
    ∧ List.Forall₂ (fun j1 j2 =>
        j2.status = j1.status ∧ j2.lease_expires_at = j1.lease_expires_at ∧
          j2.attempt = j1.attempt)
      (release [jobLeased] 9 1 true)
      (release (release [jobLeased] 9 1 true) 11 1 true) :=
  release_success_idempotent [jobLeased] 9 11 1

/-- C8: every engine mutation — `acquire`, `extend_lease`, `release` —
leaves `id`, `priority`, `queue`, `payload`, `max_attempts`, `created_at`
and the reserved `rate_group`, `cron`, `next_run_at` of every row exactly as
they were (only `status`, `lease_expires_at`, `attempt`, `scheduled_at`,
`updated_at` may change). -/
theorem mutation_frame :
    (∀ (db : DB) (now ttl : Int) (qf : Option String),
        List.Forall₂ frameEq db (dequeue_with_lease db now ttl qf).2)
    ∧ (∀ (db : DB) (now : Int) (job_id : Nat) (ttl : Int),
        List.Forall₂ frameEq db (extend_lease db now job_id ttl).2)
    ∧ (∀ (db : DB) (now : Int) (job_id : Nat) (success : Bool),
        List.Forall₂ frameEq db (release db now job_id success)) := by
  have hrefl : ∀ j : Job, frameEq j j :=
    fun j => ⟨rfl, rfl, rfl, rfl, rfl, rfl, rfl, rfl, rfl⟩
  refine ⟨?_, ?_, ?_⟩
  · intro db now ttl qf
    cases hsel : selectJob db now qf with
    | none =>
        simp only [dequeue_with_lease, hsel]
        exact forall2_self _ db fun x _ => hrefl x
    | some b =>
        simp only [dequeue_with_lease, hsel]
        refine forall2_map_self _ _ db ?_
        intro j hj
        by_cases hid : j.id = b.id
        · simp [hid, frameEq, leaseRow]
        · simpa [hid] using hrefl j
  · intro db now job_id ttl
    cases hf : db.find? (extendPred now job_id) with
    | none =>
        simp only [extend_lease, hf]
        exact forall2_self _ db fun x _ => hrefl x
    | some row =>
        simp only [extend_lease, hf]
        refine forall2_map_self _ _ db ?_
        intro j hj
        by_cases hid : j.id = job_id
        · simp [hid, frameEq]
        · simpa [hid] using hrefl j
  · intro db now job_id success
    refine forall2_map_self _ _ db ?_
    intro j hj
    by_cases hid : j.id = job_id
    · cases success <;>
        simp [hid, frameEq, releaseSuccessRow, releaseFailureRow]
    · simpa [hid] using hrefl j

/-- Witness for `mutation_frame`: a successful release on the leased
fixture keeps all frame columns. -/
theorem mutation_frame_witness :
    List.Forall₂ frameEq [jobLeased] (release [jobLeased] 9 1 true) :=
  mutation_frame.2.2 [jobLeased] 9 1 true

lemma extendPred_iff {now : Int} {job_id : Nat} {j : Job} :
    extendPred now job_id j = true ↔
      j.id = job_id ∧ j.status = .leased ∧
        ∃ e, j.lease_expires_at = some e ∧ now < e := by
  cases hl : j.lease_expires_at <;> simp [extendPred, hl, and_assoc]

lemma find?_eq_of_nodup {p : Job → Bool} :
    ∀ (db : DB), (db.map Job.id).Nodup → ∀ j ∈ db, p j = true →
      (∀ k ∈ db, p k = true → k.id = j.id) → db.find? p = some j := by
  intro db
  induction db with
  | nil => intro _ j hj; cases hj
  | cons a t ih =>
      intro hnd j hj hpj hid
      rw [List.map_cons, List.nodup_cons] at hnd
      rcases List.mem_cons.mp hj with rfl | hjt
      · exact List.find?_cons_of_pos t hpj
      · have hpa : ¬ (p a = true) := by
          intro hpa
          have hida : a.id = j.id := hid a (List.mem_cons_self a t) hpa
          exact hnd.1 (by rw [hida]; exact List.mem_map_of_mem Job.id hjt)
        rw [List.find?_cons_of_neg t hpa]
        exact ih hnd.2 j hjt hpj fun k hk hpk =>
          hid k (List.mem_cons_of_mem a hk) hpk

/-- C3: `extend_lease(job_id, ttl)` reports true iff the job exists with
status `leased` and a lease expiring strictly after `now`; on success the
row's `lease_expires_at` becomes the previous expiry plus `ttl` (relative to
the old expiry, not to `now`) with `updated_at` refreshed; on failure no row
of the table is mutated. -/
theorem extend_lease_spec :
    ∀ (db : DB) (now : Int) (job_id : Nat) (ttl : Int),
      ((extend_lease db now job_id ttl).1 = true ↔
        ∃ j, j ∈ db ∧ j.id = job_id ∧ j.status = .leased ∧
          ∃ e, j.lease_expires_at = some e ∧ now < e)
      ∧ ((extend_lease db now job_id ttl).1 = false →
          (extend_lease db now job_id ttl).2 = db)
      ∧ (∀ (j : Job) (e : Int), (db.map Job.id).Nodup → j ∈ db →
          j.id = job_id → j.status = .leased → j.lease_expires_at = some e →
          now < e →
          extend_lease db now job_id ttl =
            (true, db.map (fun k =>
              if k.id = job_id then
                { k with lease_expires_at := some (e + ttl),
                         updated_at := now }
              else k))) := by
  intro db now job_id ttl
  refine ⟨?_, ?_, ?_⟩
  · cases hf : db.find? (extendPred now job_id) with
    | none =>
        simp only [extend_lease, hf]
        constructor
        · intro hfalse; exact absurd hfalse (by simp)
        · rintro ⟨j, hj, hid, hs, e, hl, he⟩
          have hsome : (db.find? (extendPred now job_id)).isSome := by
            rw [List.find?_isSome]
            exact ⟨j, hj, extendPred_iff.mpr ⟨hid, hs, e, hl, he⟩⟩
          rw [hf] at hsome
          simp at hsome
    | some row =>
        simp only [extend_lease, hf]
        constructor
        · intro _
          have hrow := List.find?_some hf
          have hmem := List.mem_of_find?_eq_some hf
          obtain ⟨hid, hs, e, hl, he⟩ := extendPred_iff.mp hrow
          exact ⟨row, hmem, hid, hs, e, hl, he⟩
        · intro _; trivial
  · cases hf : db.find? (extendPred now job_id) with
    | none => intro _; simp [extend_lease, hf]
    | some row =>
        intro hfalse
        simp only [extend_lease, hf] at hfalse
        simp at hfalse
  · intro j e hnd hj hid hs hl he
    have hfind : db.find? (extendPred now job_id) = some j := by
      refine find?_eq_of_nodup db hnd j hj
        (extendPred_iff.mpr ⟨hid, hs, e, hl, he⟩) ?_
      intro k hk hpk
      rw [(extendPred_iff.mp hpk).1, hid]
    simp only [extend_lease, hfind, hl, Option.getD_some]

/-- Witness for `extend_lease_spec`: extending the leased fixture by 5 at
instant 10 moves its expiry from 100 to 105. -/
theorem extend_lease_spec_witness :
    extend_lease [jobLeased] 10 1 5 =
      (true, [jobLeased].map (fun k =>
        if k.id = 1 then
          { k with lease_expires_at := some (100 + 5), updated_at := 10 }
        else k)) :=
  (extend_lease_spec [jobLeased] 10 1 5).2.2 jobLeased 100 (by decide)
    (by decide) (by decide) (by decide) (by decide) (by decide)

/-- C7: `lease_expires_at` is non-null iff `status = leased`, and every
operation preserves this invariant: `enqueue` only adds a `queued` row with
null lease, `acquire` leases the selected row together with the non-null
expiry `now + ttl` (returning it so), `extend_lease` keeps the row leased
while writing a non-null expiry, and both `release` outcomes clear the lease
together with a non-leased status. -/
theorem lease_nonnull_iff_leased :
    (∀ (db : DB) (now : Int) (q : String) (p : Int) (pay : Option String)
        (ma : Int) (sa : Option Int) (rg cr nr : Option String),
        dbInv db → dbInv (enqueue db now q p pay ma sa rg cr nr).2)
    ∧ (∀ (db : DB) (now : Int) (q : String) (p : Int) (pay : Option String)
        (ma : Int) (sa : Option Int) (rg cr nr : Option String),
        ∀ j ∈ (enqueue db now q p pay ma sa rg cr nr).2,
          j ∈ db ∨ (j.status = .queued ∧ j.lease_expires_at = none))
    ∧ (∀ (db : DB) (now ttl : Int) (qf : Option String),
        dbInv db → dbInv (dequeue_with_lease db now ttl qf).2)
    ∧ (∀ (db : DB) (now ttl : Int) (qf : Option String) (j : Job) (db2 : DB),
        dequeue_with_lease db now ttl qf = (some j, db2) →
        j.status = .leased ∧ j.lease_expires_at = some (now + ttl))
    ∧ (∀ (db : DB) (now : Int) (job_id : Nat) (ttl : Int),
        (db.map Job.id).Nodup → dbInv db →
        dbInv (extend_lease db now job_id ttl).2)
    ∧ (∀ (db : DB) (now : Int) (job_id : Nat) (success : Bool),
        dbInv db → dbInv (release db now job_id success)) := by
  refine ⟨?_, ?_, ?_, ?_, ?_, ?_⟩
  · intro db now q p pay ma sa rg cr nr hinv j hj
    simp only [enqueue, List.mem_append, List.mem_singleton] at hj
    rcases hj with hj | rfl
    · exact hinv j hj
    · simp [leaseInv]
  · intro db now q p pay ma sa rg cr nr j hj
    simp only [enqueue, List.mem_append, List.mem_singleton] at hj
    rcases hj with hj | rfl
    · exact Or.inl hj
    · exact Or.inr ⟨rfl, rfl⟩
  · intro db now ttl qf hinv
    cases hsel : selectJob db now qf with
    | none => simpa [dequeue_with_lease, hsel] using hinv
    | some b =>
        simp only [dequeue_with_lease, hsel]
        intro j hj
        obtain ⟨x, hx, hfx⟩ := List.mem_map.mp hj
        by_cases hxd : x.id = b.id
        · rw [← hfx]
          simp [hxd, leaseInv, leaseRow]
        · rw [← hfx]
          simpa [hxd] using hinv x hx
  · intro db now ttl qf j db2 h
    cases hsel : selectJob db now qf with
    | none =>
        rw [dequeue_with_lease, hsel] at h
        exact absurd h (by simp)
    | some b =>
        simp only [dequeue_with_lease, hsel] at h
        obtain ⟨h1, h2⟩ := Prod.mk.injEq .. ▸ h
        rw [← Option.some_inj.mp h1]
        simp [leaseRow]
  · intro db now job_id ttl hnd hinv
    cases hf : db.find? (extendPred now job_id) with
    | none => simpa [extend_lease, hf] using hinv
    | some row =>
        have hrow := List.find?_some hf
        have hmem := List.mem_of_find?_eq_some hf
        obtain ⟨hid, hs, e, hl, he⟩ := extendPred_iff.mp hrow
        simp only [extend_lease, hf]
        intro j hj
        obtain ⟨x, hx, hfx⟩ := List.mem_map.mp hj
        by_cases hxd : x.id = job_id
        · have hxr : x = row :=
            List.inj_on_of_nodup_map hnd hx hmem (by rw [hxd, hid])
          subst hxr
          rw [← hfx]
          simp [hid, leaseInv, hs]
        · rw [← hfx]
          simpa [hxd] using hinv x hx
  · intro db now job_id success hinv j hj
    obtain ⟨x, hx, hfx⟩ := List.mem_map.mp hj
    by_cases hxd : x.id = job_id
    · rw [← hfx]
      cases success <;>
        simp [hxd, leaseInv, releaseSuccessRow, releaseFailureRow]
    · rw [← hfx]
      simpa [hxd] using hinv x hx

/-- Witness for `lease_nonnull_iff_leased`: the invariant holds after
releasing the leased fixture with success. -/
theorem lease_nonnull_iff_leased_witness :
    dbInv (release [jobLeased] 9 1 true) :=
  lease_nonnull_iff_leased.2.2.2.2.2 [jobLeased] 9 1 true
    (by simp [dbInv, leaseInv, jobLeased])

lemma acquireSeq_all_none {now ttl : Int} {qf : Option String} {db : DB}
    (h : ∀ k ∈ db, (eligible now k && queueMatch qf k) = false) :
    ∀ n, (acquireSeq now ttl qf n db).1 = List.replicate n none := by
  have hsel : selectJob db now qf = none := selectJob_eq_none_iff.mpr h
  have hdq : dequeue_with_lease db now ttl qf = (none, db) := by
    simp [dequeue_with_lease, hsel]
  intro n
  induction n with
  | zero => rfl
  | succ m ih => simp [acquireSeq, hdq, ih, List.replicate_succ]

/-- C9: with the racing transactions serialized by the exclusive write
transaction (`BEGIN IMMEDIATE`), when exactly one eligible job exists and
N + 1 callers race, exactly the first serialized caller receives that job
(leased until `now + ttl`) and every other caller receives the "none
available" result (an ordinary value, not an error). -/
theorem concurrent_acquire_single_winner :
    ∀ (db : DB) (now ttl : Int) (qf : Option String) (n : Nat) (j0 : Job),
      0 < ttl → j0 ∈ db → eligible now j0 = true → queueMatch qf j0 = true →
      (∀ k ∈ db, eligible now k = true → queueMatch qf k = true → k = j0) →
      (acquireSeq now ttl qf (n + 1) db).1 =
        some (leaseRow now ttl j0) :: List.replicate n none := by
  intro db now ttl qf n j0 httl hmem he hq huniq
  have hsel : selectJob db now qf = some j0 := by
    cases hsel : selectJob db now qf with
    | none =>
        have hall := selectJob_eq_none_iff.mp hsel j0 hmem
        rw [he, hq] at hall
        simp at hall
    | some b =>
        obtain ⟨hb, hgb⟩ := selectJob_mem hsel
        rw [Bool.and_eq_true] at hgb
        rw [huniq b hb hgb.1 hgb.2]
  have hdq : dequeue_with_lease db now ttl qf =
      (some (leaseRow now ttl j0),
       db.map (fun k => if k.id = j0.id then leaseRow now ttl k else k)) := by
    simp [dequeue_with_lease, hsel]
  have hpost : ∀ k ∈ db.map
      (fun k => if k.id = j0.id then leaseRow now ttl k else k),
      (eligible now k && queueMatch qf k) = false := by
    intro k hk
    obtain ⟨x, hx, hfx⟩ := List.mem_map.mp hk
    rw [← hfx]
    by_cases hid : x.id = j0.id
    · simp [hid, leaseRow_not_eligible httl]
    · rw [if_neg hid]
      cases hex : eligible now x with
      | false => simp
      | true =>
          cases hqx : queueMatch qf x with
          | false => simp
          | true => exact absurd (congrArg Job.id (huniq x hx hex hqx)) hid
  simp [acquireSeq, hdq, acquireSeq_all_none hpost n]

/-- Witness for `concurrent_acquire_single_winner`: three callers race for
the single queued fixture; the first wins, the other two get none. -/
theorem concurrent_acquire_single_winner_witness :
    (acquireSeq 0 60 none 3 [jobA]).1 =
      some (leaseRow 0 60 jobA) :: List.replicate 2 none :=
  concurrent_acquire_single_winner [jobA] 0 60 none 2 jobA (by decide)
    (by decide) (by decide) (by decide) (by decide)

/-- Counterexample to C4 as stated: the `UPDATE` of `release` has no status
guard, so `release(success=false)` on a job whose status is the terminal
`succeeded` moves it back to `queued` — an operation does move a job out of
a terminal status, and performs a status change (`succeeded → queued`)
outside the claimed set. -/
theorem release_exits_terminal_counterexample :
    jobDone.status = .succeeded ∧
      (release [jobDone] 5 1 false).map Job.status = [.queued] := by
  decide

/-- C4 (amended): the status changes performed by `acquire` are exactly
`queued → leased` (reclaiming an expired lease keeps status `leased`);
`extend_lease` changes no status; and `release` sets the target to
`succeeded` (success) or `queued` (failure) whatever its prior status, so
when `release` is invoked only on currently leased rows — the intended use
— every status change is one of `queued → leased`, `leased → succeeded`,
`leased → queued`, no operation moves a job into `failed` or `canceled`,
and a `succeeded` job is never moved out of its terminal status. -/
theorem status_transitions_guarded :
    (∀ (db : DB) (now ttl : Int) (qf : Option String),
        (db.map Job.id).Nodup →
        List.Forall₂ (fun j j2 =>
          j2.status = j.status ∨ (j.status = .queued ∧ j2.status = .leased))
          db (dequeue_with_lease db now ttl qf).2)
    ∧ (∀ (db : DB) (now : Int) (job_id : Nat) (ttl : Int),
        List.Forall₂ (fun j j2 => j2.status = j.status)
          db (extend_lease db now job_id ttl).2)
    ∧ (∀ (db : DB) (now : Int) (job_id : Nat),
        (∀ j ∈ db, j.id = job_id → j.status = .leased) →
        List.Forall₂ (fun j j2 =>
          j2.status = j.status ∨ (j.status = .leased ∧ j2.status = .succeeded))
          db (release db now job_id true))
    ∧ (∀ (db : DB) (now : Int) (job_id : Nat),
        (∀ j ∈ db, j.id = job_id → j.status = .leased) →
        List.Forall₂ (fun j j2 =>
          j2.status = j.status ∨ (j.status = .leased ∧ j2.status = .queued))
          db (release db now job_id false)) := by
  refine ⟨?_, ?_, ?_, ?_⟩
  · intro db now ttl qf hnd
    cases hsel : selectJob db now qf with
    | none =>
        simp only [dequeue_with_lease, hsel]
        exact forall2_self _ db fun x _ => Or.inl rfl
    | some b =>
        obtain ⟨hbm, hbg⟩ := selectJob_mem hsel
        rw [Bool.and_eq_true] at hbg
        simp only [dequeue_with_lease, hsel]
        refine forall2_map_self _ _ db ?_
        intro j hj
        by_cases hid : j.id = b.id
        · have hjb : j = b := List.inj_on_of_nodup_map hnd hj hbm hid
          subst hjb
          rcases eligible_status hbg.1 with hs | hs
          · exact Or.inr ⟨hs, by simp [hid, leaseRow]⟩
          · exact Or.inl (by simp [hid, leaseRow, hs])
        · simp [hid]
  · intro db now job_id ttl
    cases hf : db.find? (extendPred now job_id) with
    | none =>
        simp only [extend_lease, hf]
        exact forall2_self _ db fun x _ => rfl
    | some row =>
        simp only [extend_lease, hf]
        refine forall2_map_self _ _ db ?_
        intro j hj
        by_cases hid : j.id = job_id <;> simp [hid]
  · intro db now job_id hleased
    refine forall2_map_self _ _ db ?_
    intro j hj
    by_cases hid : j.id = job_id
    · exact Or.inr ⟨hleased j hj hid, by simp [hid, releaseSuccessRow]⟩
    · simp [hid]
  · intro db now job_id hleased
    refine forall2_map_self _ _ db ?_
    intro j hj
    by_cases hid : j.id = job_id
    · exact Or.inr ⟨hleased j hj hid, by simp [hid, releaseFailureRow]⟩
    · simp [hid]

/-- Witness for `status_transitions_guarded`: releasing the leased fixture
with failure makes a `leased → queued` transition. -/
theorem status_transitions_guarded_witness :
    List.Forall₂ (fun j j2 =>
      j2.status = j.status ∨ (j.status = .leased ∧ j2.status = .queued))
      [jobLeased] (release [jobLeased] 9 1 false) :=
  status_transitions_guarded.2.2.2 [jobLeased] 9 1 (by decide)

end Andorinha
